import Mathlib

/-!
Shallow embedding of the Square-1 scrambler (`src/cube.rs`, `src/lib.rs`).

Machine integers are modelled as `Int`/`Nat`.  The Rust sources perform
`i8` arithmetic; where a claim quantifies over inputs for which that
arithmetic can overflow, the two's-complement wrap of the release build is
made explicit with `wrap8`.  Fallible or possibly-diverging code (the
unbounded extraction loop of `get_reverse`, the rejection-sampling loops,
and the `Vec` indexing of `flip`) is modelled with `Option`: `none` stands
for a panic or for divergence.  The random number generator is modelled as
an externally supplied stream `g : Nat → Int` of draws together with a
cursor that is threaded through the computation.
-/

namespace SqOneSpec

/-- `Color` from `cube.rs` with its `repr(u8)` ordinal codes
(White = 0, Yellow = 1, Blue = 3, Green = 4, Red = 6, Orange = 7). -/
inductive Color
  | White
  | Yellow
  | Blue
  | Green
  | Red
  | Orange
deriving DecidableEq, Repr

/-- The `u8` discriminant of a `Color` as assigned in the Rust enum. -/
def Color.code : Color → Nat
  | .White => 0
  | .Yellow => 1
  | .Blue => 3
  | .Green => 4
  | .Red => 6
  | .Orange => 7

/-- `u8::abs_diff` on the color codes. -/
def abs_diff (a b : Nat) : Nat :=
  if a ≤ b then b - a else a - b

/-- `possible(c1, c2)` from `cube.rs`: the pair of color codes may appear
on one piece iff the codes do not differ by exactly 1. -/
def possible (c1 c2 : Nat) : Bool :=
  decide (abs_diff c1 c2 ≠ 1)

/-- `EdgeColor`: the two colors of an edge piece. -/
structure EdgeColor where
  colors : Color × Color
deriving DecidableEq, Repr

/-- `EdgeColor::possible`. -/
def EdgeColor.possible (e : EdgeColor) : Bool :=
  SqOneSpec.possible e.colors.1.code e.colors.2.code

/-- `CornerColor`: the three colors of a corner piece. -/
structure CornerColor where
  colors : Color × Color × Color
deriving DecidableEq, Repr

/-- `CornerColor::possible`: all three pairwise checks. -/
def CornerColor.possible (c : CornerColor) : Bool :=
  SqOneSpec.possible c.colors.1.code c.colors.2.1.code
    && SqOneSpec.possible c.colors.2.1.code c.colors.2.2.code
    && SqOneSpec.possible c.colors.1.code c.colors.2.2.code

/-- `Piece` from `cube.rs`: an edge or a corner. -/
inductive Piece
  | Edge (c : EdgeColor)
  | Corner (c : CornerColor)
deriving DecidableEq, Repr

/-- `COLOR_ORDER`: the fixed equator cycle Green, Orange, Blue, Red. -/
def COLOR_ORDER : List Color :=
  [Color.Green, Color.Orange, Color.Blue, Color.Red]

/-- The `SqOne` struct: two 12-slot layers (`none` marks an empty slot /
corner continuation), the two signed rotation offsets, and the `middle`
parity flag.  The `i8` offsets are modelled as `Int`. -/
structure SqOne where
  top : List (Option Piece)
  top_offset : Int
  bottom : List (Option Piece)
  bottom_offset : Int
  middle : Bool
deriving DecidableEq, Repr

/-- Two's-complement wrap of an `i8` arithmetic result (release-profile
semantics of overflow; a debug build would panic instead on the inputs
where `wrap8` is not the identity). -/
def wrap8 (x : Int) : Int :=
  (x + 128) % 256 - 128

/-- `abs_mod(a, n)` from `cube.rs`: the loop adds `n` to `a` while `a` is
negative and then takes the non-negative Rust `%`; for `n > 0` that is
exactly the Euclidean remainder, which is what `Int.emod` computes. -/
def abs_mod (a n : Int) : Int :=
  a % n

/-- `SqOne::gen_layer`: build one 12-slot layer; for each `i < 4` push the
corner `(COLOR_ORDER[i-1 mod 4], COLOR_ORDER[i], pole)`, an empty
continuation slot, and the edge `(COLOR_ORDER[i], pole)`. -/
def gen_layer (is_top_layer : Bool) : List (Option Piece) :=
  let top_color := if is_top_layer then Color.White else Color.Yellow
  (List.range 4).foldl
    (fun layer (i : Nat) =>
      let corner := Piece.Corner
        ⟨(COLOR_ORDER.getD (abs_mod ((i : Int) - 1) 4).toNat Color.White,
          COLOR_ORDER.getD i Color.White,
          top_color)⟩
      let edge := Piece.Edge ⟨(COLOR_ORDER.getD i Color.White, top_color)⟩
      layer ++ [some corner, none, some edge])
    []

/-- `SqOne::new()`: the solved configuration. -/
def SqOne.new : SqOne :=
  { top := gen_layer true
    top_offset := 0
    bottom := gen_layer false
    bottom_offset := 0
    middle := false }

/-- Does a slot hold a corner piece (the `if let Some(Piece::Corner(_))`
pattern of `can_flip_layer`)? -/
def isCorner : Option Piece → Bool
  | some (Piece.Corner _) => true
  | _ => false

/-- `SqOne::can_flip_layer`: the layer can be split at the cut defined by
`offset` iff neither boundary slot `(5 - offset) mod 12` nor
`(11 - offset) mod 12` holds a corner.  `5 - offset` and `11 - offset` are
`i8` subtractions, hence the `wrap8`. -/
def can_flip_layer (layer : List (Option Piece)) (offset : Int) : Bool :=
  if isCorner (layer.getD (abs_mod (wrap8 (5 - offset)) 12).toNat none) then
    false
  else if isCorner (layer.getD (abs_mod (wrap8 (11 - offset)) 12).toNat none) then
    false
  else
    true

/-- `SqOne::can_flip`: both layers pass the check at their current offsets. -/
def can_flip (s : SqOne) : Bool :=
  can_flip_layer s.top s.top_offset && can_flip_layer s.bottom s.bottom_offset

/-- The loop of `SqOne::get_reverse`, operating on the function's local
clone of the layer.  `iter` walks downward (mod 12) from just before the
back cut until it reaches `endIdx`; a `some` slot is taken and appended,
a `none` slot is a corner continuation, so the owning corner at `iter - 1`
is taken and appended together with the continuation marker.  The Rust
loop is unbounded; a terminating run makes at most 7 iterations (the walk
spans 6 slots), so fuel 12 is an upper bound for every run that the Rust
code completes, and `none` models divergence. -/
def get_reverse_go :
    Nat → List (Option Piece) → List (Option Piece) → Nat → Nat →
      Option (List (Option Piece) × List (Option Piece))
  | 0, _, _, _, _ => none
  | fuel + 1, layer, reverse, iter, endIdx =>
    if iter = endIdx then
      some (layer, reverse)
    else
      match layer.getD iter none with
      | some p =>
        get_reverse_go fuel (layer.set iter none) (reverse ++ [some p])
          (abs_mod ((iter : Int) - 1) 12).toNat endIdx
      | none =>
        let j := (abs_mod ((iter : Int) - 1) 12).toNat
        get_reverse_go fuel (layer.set j none)
          (reverse ++ [layer.getD j none, none])
          (abs_mod ((j : Int) - 1) 12).toNat endIdx

/-- `SqOne::get_reverse`: the function receives the layer by reference and
immediately clones it (`let mut layer = layer.clone()`), so the loop's
takes mutate only the clone and the caller's vector is unchanged when the
call returns.  The result pairs the caller-visible layer after the call
(the unchanged argument) with the returned reversed half. -/
def get_reverse (layer : List (Option Piece)) (offset : Int) :
    Option (List (Option Piece) × List (Option Piece)) :=
  (get_reverse_go 12 layer []
      (abs_mod (wrap8 (11 - offset)) 12).toNat
      (abs_mod (wrap8 (5 - offset)) 12).toNat).map
    (fun r => (layer, r.2))

/-- The redistribution loop of `SqOne::flip`: for `i` in `6..12`, write
`rev[i - 6]` into slot `(i - offset) mod 12` of `target`. -/
def writeHalf (target : List (Option Piece)) (offset : Int)
    (rev : List (Option Piece)) : List (Option Piece) :=
  (List.range 6).foldl
    (fun acc (j : Nat) =>
      acc.set (abs_mod (wrap8 ((6 + (j : Int)) - offset)) 12).toNat
        (rev.getD j none))
    target

/-- `SqOne::flip`: no-op when `can_flip` fails; otherwise extract the
reversed back halves of both layers and write each into the *other*
layer's back-half window, then toggle `middle`.  The indexing
`reverse[index]` of the Rust loop panics when a reversed half has fewer
than 6 entries; that is the `none` branch of the length guard. -/
def flip (s : SqOne) : Option SqOne :=
  if can_flip s then
    match get_reverse s.top s.top_offset, get_reverse s.bottom s.bottom_offset with
    | some (topAfter, top_reverse), some (botAfter, bottom_reverse) =>
      if 6 ≤ top_reverse.length ∧ 6 ≤ bottom_reverse.length then
        some { s with
          top := writeHalf topAfter s.top_offset bottom_reverse
          bottom := writeHalf botAfter s.bottom_offset top_reverse
          middle := !s.middle }
      else none
    | _, _ => none
  else some s

/-- `SqOne::twist`: add the top delta to `top_offset`, subtract the bottom
delta from `bottom_offset`, and renormalize both through
`abs_mod(x + 5, 12) - 5`.  The sums and the `+ 5` are `i8` operations,
hence the `wrap8`s. -/
def twist (s : SqOne) (top_offset bottom_offset : Int) : SqOne :=
  let top_sum := wrap8 (s.top_offset + top_offset)
  let bot_sum := wrap8 (s.bottom_offset - bottom_offset)
  { s with
    top_offset := abs_mod (wrap8 (top_sum + 5)) 12 - 5
    bottom_offset := abs_mod (wrap8 (bot_sum + 5)) 12 - 5 }

/-- `SqOne::rand_layer_offset`: rejection sampling.  Each draw
`gen_range(-5..6 + 1)` is modelled as `-5 + g k % 12` from the stream `g`;
the first draw `rnum` with `can_flip_layer(layer, rnum + offset)` is
accepted, and the dead `r == -6` remapping of the source is kept.
Returns the accepted value together with the advanced stream cursor;
`none` models a run in which the unbounded Rust loop has not accepted a
draw within `fuel` iterations. -/
def rand_layer_offset (g : Nat → Int) :
    Nat → Nat → List (Option Piece) → Int → Option (Int × Nat)
  | 0, _, _, _ => none
  | fuel + 1, k, layer, offset =>
    let rnum := -5 + g k % 12
    if can_flip_layer layer (wrap8 (rnum + offset)) then
      some (if rnum = -6 then 6 else rnum, k + 1)
    else
      rand_layer_offset g fuel (k + 1) layer offset

/-- The `while bot_layer_offset == 0` redraw loop of `SqOne::scramble`:
while the current bottom draw is 0, draw again. -/
def redrawWhile (g : Nat → Int) :
    Nat → List (Option Piece) → Int → Int → Nat → Option (Int × Nat)
  | 0, _, _, b, k =>
    if b = 0 then none else some (b, k)
  | fuel + 1, layer, offset, b, k =>
    if b = 0 then
      match rand_layer_offset g (fuel + 1) k layer offset with
      | none => none
      | some (b2, k2) => redrawWhile g fuel layer offset b2 k2
    else
      some (b, k)

/-- One iteration of `SqOne::scramble`'s `for` loop followed by the
recursive rest: draw a legal top offset, draw a legal bottom offset,
redraw the bottom one while it is 0 if the top draw was 0, apply
`twist(t, -b)` then `flip`, and record `(t, -b)`. -/
def scrambleGo (g : Nat → Int) (fuel : Nat) :
    Nat → SqOne → Nat → Option (List (Int × Int) × SqOne)
  | 0, s, _ => some ([], s)
  | n + 1, s, k =>
    match rand_layer_offset g fuel k s.top s.top_offset with
    | none => none
    | some (t, k1) =>
      match rand_layer_offset g fuel k1 s.bottom s.bottom_offset with
      | none => none
      | some (b0, k2) =>
        match
          (if t = 0 then redrawWhile g fuel s.bottom s.bottom_offset b0 k2
           else some (b0, k2)) with
        | none => none
        | some (b, k3) =>
          match flip (twist s t (-b)) with
          | none => none
          | some s2 =>
            match scrambleGo g fuel n s2 k3 with
            | none => none
            | some (rest, sF) => some ((t, -b) :: rest, sF)

/-- `SqOne::scramble`: `NUM_FLIPS = 20` iterations starting at stream
cursor 0; returns the recorded pairs and the final state. -/
def scramble (g : Nat → Int) (fuel : Nat) (s : SqOne) :
    Option (List (Int × Int) × SqOne) :=
  scrambleGo g fuel 20 s 0

/-- `normalize(x) = ((x + 5) mod 12) - 5` — modelled from the spec's words
(§4.6), with the modulo "defined to always yield a non-negative remainder";
used to state the refinement claims about `twist` and `can_flip_layer`. -/
def normalize (x : Int) : Int :=
  (x + 5) % 12 - 5

/-- The Rust `{:?}` rendering of one `(i8, i8)` pair, e.g. `"(1, -2)"`. -/
def fmtPair (p : Int × Int) : String :=
  "(" ++ toString p.1 ++ ", " ++ toString p.2 ++ ")"

/-- `impl fmt::Display for Scramble` from `lib.rs`: for `i` in
`0..turns.len() - 1` append `"{:?} / "` of `turns[i]`, then append `{:?}`
of the last pair.  On an empty vector `turns.len() - 1` underflows `usize`
and the first indexing panics, which `none` models. -/
def displayScramble (turns : List (Int × Int)) : Option String :=
  if turns.length = 0 then
    none
  else
    some
      ((((turns.take (turns.length - 1)).map (fun p => fmtPair p ++ " / ")).foldl
          (fun a b => a ++ b) "")
        ++ fmtPair (turns.getD (turns.length - 1) (0, 0)))

/-- Specification-side rendering: the pair texts joined by `" / "` with no
trailing separator. -/
def joinSep : List String → String
  | [] => ""
  | [x] => x
  | x :: y :: ys => x ++ " / " ++ joinSep (y :: ys)

/-- The possibility check for whatever occupies one slot. -/
def slot_possible : Option Piece → Bool
  | none => true
  | some (Piece.Edge e) => e.possible
  | some (Piece.Corner c) => c.possible

/-- Every piece present in either layer satisfies the possibility
invariant. -/
def pieces_possible (s : SqOne) : Bool :=
  s.top.all slot_possible && s.bottom.all slot_possible

/-- Number of occupied slots of a layer. -/
def countSome (l : List (Option Piece)) : Nat :=
  (l.filter Option.isSome).length

/-- How many of the 12 candidate offsets in `{-5, …, 6}` pass
`can_flip_layer` for this layer. -/
def legalCount (layer : List (Option Piece)) : Nat :=
  ((List.range 12).filter (fun (k : Nat) => can_flip_layer layer ((k : Int) - 5))).length

/-- States reachable from the solved configuration by `twist` and `flip`
(a `flip` step requires the call to return, i.e. not to panic/diverge). -/
inductive Reachable : SqOne → Prop
  | init : Reachable SqOne.new
  | twist (s : SqOne) (a b : Int) : Reachable s → Reachable (twist s a b)
  | flip (s s' : SqOne) : Reachable s → flip s = some s' → Reachable s'

/-- Apply a list of moves, each move being a `twist` by the pair followed
by a `flip`. -/
def applyMoves : SqOne → List (Int × Int) → Option SqOne
  | s, [] => some s
  | s, m :: ms =>
    match flip (twist s m.1 m.2) with
    | none => none
    | some s' => applyMoves s' ms

/-- A concrete move sequence from the solved state whose final state has a
bottom layer with only 2 flippable offsets. -/
def cexMoves : List (Int × Int) :=
  [(-5, -4), (-3, 0), (-1, -2), (-4, -3)]

/-- The state reached by `cexMoves`. -/
def cexState : SqOne :=
  (applyMoves SqOne.new cexMoves).getD SqOne.new

/-- Draw stream whose scramble records the pair `(1, -6)` first: the first
top draw is `-5 + 6 = 1`, the first bottom draw is `-5 + 11 = 6`. -/
def gCex : Nat → Int := fun k =>
  if k = 0 then 6 else if k = 1 then 11 else (k : Int)

/-- Draw stream whose scramble first draws top 0, then bottom 0 (forcing
the redraw loop), then bottom 1 — recording the pair `(0, -1)`. -/
def gZero : Nat → Int := fun k =>
  if k = 0 then 5 else if k = 1 then 5 else if k = 2 then 6 else (k : Int)

/-- The plain cycling draw stream `k ↦ k`. -/
def gCyc : Nat → Int := fun k => (k : Int)

/-- Structural well-formedness of a 12-slot layer: a slot is empty exactly
when it is the continuation of a corner piece that starts in the previous
(circular) slot. -/
def layer_wf (L : List (Option Piece)) : Bool :=
  L.length == 12
    && (List.range 12).all
      (fun i => decide (L.getD i none = none) == isCorner (L.getD ((i + 11) % 12) none))

/-- Invariant carried by every reachable state: both layers well-formed
and both offsets in the normalized range `[-5, 6]`. -/
def state_inv (s : SqOne) : Bool :=
  layer_wf s.top && layer_wf s.bottom
    && decide (-5 ≤ s.top_offset) && decide (s.top_offset ≤ 6)
    && decide (-5 ≤ s.bottom_offset) && decide (s.bottom_offset ≤ 6)

/-- `can_flip_layer` seen through the corner mask of a layer. -/
def can_flip_mask (m : List Bool) (offset : Int) : Bool :=
  !(m.getD (abs_mod (wrap8 (5 - offset)) 12).toNat false)
    && !(m.getD (abs_mod (wrap8 (11 - offset)) 12).toNat false)

/-- No two circularly adjacent positions of a 12-bit corner mask are both
set (corner pieces occupy two slots and cannot overlap). -/
def adjFree (m : List Bool) : Bool :=
  (List.range 12).all (fun i => !(m.getD i false && m.getD ((i + 1) % 12) false))

/-- `can_flip_mask` count over the 12 candidate offsets. -/
def legalCountMask (m : List Bool) : Nat :=
  ((List.range 12).filter (fun (k : Nat) => can_flip_mask m ((k : Int) - 5))).length

/-- All Bool lists of a given length. -/
def allBoolLists : Nat → List (List Bool)
  | 0 => [[]]
  | n + 1 => (allBoolLists n).flatMap (fun l => [true :: l, false :: l])

/-- Check a Bool-valued property on every Bool list of length `n`
(balanced recursion, so its evaluation nests only `n` levels deep). -/
def checkLists : Nat → (List Bool → Bool) → Bool
  | 0, P => P []
  | n + 1, P =>
    checkLists n (fun l => P (true :: l)) && checkLists n (fun l => P (false :: l))

/-- Structural well-formedness of an extracted half: an entry is an empty
continuation marker exactly when the preceding entry is a corner, and the
sequence does not end in a dangling corner. -/
def revOK (rev : List (Option Piece)) : Prop :=
  (∀ j, j < rev.length →
      (rev.getD j none = none ↔ (1 ≤ j ∧ isCorner (rev.getD (j - 1) none) = true)))
    ∧ (rev = [] ∨ isCorner (rev.getD (rev.length - 1) none) = false)

end SqOneSpec

namespace SqOneSpec

/-! ### Arithmetic helper lemmas -/

/-- One `a += n` step of the `abs_mod` loop leaves the result unchanged,
so the Rust loop computes the Euclidean remainder. -/
theorem abs_mod_add_self (a n : Int) : abs_mod (a + n) n = abs_mod a n := by
  simp [abs_mod, Int.add_mul_emod_self_left]

theorem abs_mod_nonneg (a : Int) : 0 ≤ abs_mod a 12 :=
  Int.emod_nonneg a (by norm_num)

theorem abs_mod_lt (a : Int) : abs_mod a 12 < 12 :=
  Int.emod_lt_of_pos a (by norm_num)

theorem wrap8_eq_self (x : Int) (h1 : -128 ≤ x) (h2 : x ≤ 127) : wrap8 x = x := by
  unfold wrap8
  omega

/-! ### C2: `twist` -/

/-- C2 (amended): for every state and every pair of delta arguments,
`twist` (with the release-profile wrapping of `i8` overflow) leaves both
offsets in `[-5, 6]`; whenever the updated value `offset + delta` (bottom
with inverted sign) and its `+ 5` shift stay inside the `i8` range, the
resulting offset equals the symmetric-range normalization
`((x + 5) mod 12) - 5` of the updated value. -/
theorem twist_range_and_normalize (s : SqOne) (dt db : Int) :
    (-5 ≤ (twist s dt db).top_offset ∧ (twist s dt db).top_offset ≤ 6 ∧
      -5 ≤ (twist s dt db).bottom_offset ∧ (twist s dt db).bottom_offset ≤ 6) ∧
    (-128 ≤ s.top_offset + dt → s.top_offset + dt ≤ 122 →
      (twist s dt db).top_offset = normalize (s.top_offset + dt)) ∧
    (-128 ≤ s.bottom_offset - db → s.bottom_offset - db ≤ 122 →
      (twist s dt db).bottom_offset = normalize (s.bottom_offset - db)) := by
  refine ⟨?_, ?_, ?_⟩
  · simp only [twist]
    have h1 := abs_mod_nonneg (wrap8 (wrap8 (s.top_offset + dt) + 5))
    have h2 := abs_mod_lt (wrap8 (wrap8 (s.top_offset + dt) + 5))
    have h3 := abs_mod_nonneg (wrap8 (wrap8 (s.bottom_offset - db) + 5))
    have h4 := abs_mod_lt (wrap8 (wrap8 (s.bottom_offset - db) + 5))
    omega
  · intro ha hb
    simp only [twist]
    rw [wrap8_eq_self (s.top_offset + dt) ha (by omega),
      wrap8_eq_self (s.top_offset + dt + 5) (by omega) (by omega)]
    rfl
  · intro ha hb
    simp only [twist]
    rw [wrap8_eq_self (s.bottom_offset - db) ha (by omega),
      wrap8_eq_self (s.bottom_offset - db + 5) (by omega) (by omega)]
    rfl

/-- C2 (counterexample): with the top delta 127 from the solved state the
`i8` intermediate `top_sum + 5` overflows, and the stored offset (3 under
wrapping; a panic under overflow checks) differs from the symmetric-range
normalization of the updated value, which is -5. -/
theorem twist_overflow_cex :
    (twist SqOne.new 127 0).top_offset = 3 ∧
      normalize (SqOne.new.top_offset + 127) = -5 := by
  decide

/-- Witness for C2 at the solved state with deltas 7, 7. -/
theorem twist_range_and_normalize_witness :
    (twist SqOne.new 7 7).top_offset = normalize (SqOne.new.top_offset + 7) :=
  (twist_range_and_normalize SqOne.new 7 7).2.1 (by decide) (by decide)

/-! ### C9: `can_flip_layer` and normalization -/

/-- C9 (amended): `can_flip_layer` is invariant under the symmetric-range
normalization of the offset for every offset whose boundary computations
`5 - x` and `11 - x` stay inside the `i8` range (every `x ≥ -116`). -/
theorem can_flip_layer_normalize (layer : List (Option Piece)) (x : Int)
    (h1 : -116 ≤ x) (h2 : x ≤ 127) :
    can_flip_layer layer x = can_flip_layer layer (normalize x) := by
  have hn : -5 ≤ normalize x ∧ normalize x ≤ 6 := by
    unfold normalize
    have := Int.emod_nonneg (x + 5) (show (12 : Int) ≠ 0 by norm_num)
    have := Int.emod_lt_of_pos (x + 5) (show (0 : Int) < 12 by norm_num)
    omega
  have e1 : (abs_mod (wrap8 (5 - x)) 12).toNat
      = (abs_mod (wrap8 (5 - normalize x)) 12).toNat := by
    rw [wrap8_eq_self (5 - x) (by omega) (by omega),
      wrap8_eq_self (5 - normalize x) (by omega) (by omega)]
    simp only [abs_mod, normalize]
    omega
  have e2 : (abs_mod (wrap8 (11 - x)) 12).toNat
      = (abs_mod (wrap8 (11 - normalize x)) 12).toNat := by
    rw [wrap8_eq_self (11 - x) (by omega) (by omega),
      wrap8_eq_self (11 - normalize x) (by omega) (by omega)]
    simp only [abs_mod, normalize]
    omega
  unfold can_flip_layer
  rw [e1, e2]

/-- C9 (counterexample): at the `i8` offset -128 the subtraction
`11 - offset` overflows, and on the solved top layer `can_flip_layer`
answers `false` at -128 but `true` at its normalization 4. -/
theorem can_flip_layer_overflow_cex :
    normalize (-128) = 4 ∧
      can_flip_layer (gen_layer true) (-128) = false ∧
      can_flip_layer (gen_layer true) (normalize (-128)) = true := by
  decide

/-- Witness for C9 on the solved top layer at offset 7. -/
theorem can_flip_layer_normalize_witness :
    can_flip_layer (gen_layer true) 7
      = can_flip_layer (gen_layer true) (normalize 7) :=
  can_flip_layer_normalize (gen_layer true) 7 (by decide) (by decide)

/-! ### C5: illegal `flip` is a no-op -/

/-- C5: whenever `can_flip` is false, `flip` returns the state unchanged:
same layers, same offsets, same `middle` flag. -/
theorem flip_noop_of_not_can_flip (s : SqOne) (h : can_flip s = false) :
    flip s = some s := by
  simp [flip, h]

/-- Witness for C5: twisting the solved state by 2 puts a corner at the
top cut, `can_flip` is false, and `flip` returns the state itself. -/
theorem flip_noop_witness :
    flip (twist SqOne.new 2 0) = some (twist SqOne.new 2 0) :=
  flip_noop_of_not_can_flip _ (by decide)

/-! ### C7: the extraction is a take from the clone, not from the caller -/

theorem countSome_cons (a : Option Piece) (l : List (Option Piece)) :
    countSome (a :: l) = (if a.isSome then 1 else 0) + countSome l := by
  cases a <;> simp [countSome, List.filter]
  omega

theorem countSome_append (l1 l2 : List (Option Piece)) :
    countSome (l1 ++ l2) = countSome l1 + countSome l2 := by
  simp [countSome, List.filter_append]

theorem countSome_set_none (l : List (Option Piece)) (i : Nat) :
    countSome (l.set i none) + (if (l.getD i none).isSome then 1 else 0)
      = countSome l := by
  induction l generalizing i with
  | nil => simp [countSome, List.getD]
  | cons a l ih =>
    cases i with
    | zero =>
      simp only [List.set, List.getD_cons_zero, countSome_cons]
      simp [countSome]
      omega
    | succ n =>
      simp only [List.set, List.getD_cons_succ, countSome_cons]
      have := ih n
      omega

/-- Conservation through `get_reverse_go`: the occupied slots of the local
clone plus the occupied entries of the output always balance the input
counts — every piece that appears in the reversed half was removed
(set empty) from the clone, and nothing else was. -/
theorem get_reverse_go_count :
    ∀ (fuel : Nat) (loc rev : List (Option Piece)) (iter endIdx : Nat)
      (loc' rev' : List (Option Piece)),
      get_reverse_go fuel loc rev iter endIdx = some (loc', rev') →
      countSome loc' + countSome rev' = countSome loc + countSome rev := by
  intro fuel
  induction fuel with
  | zero =>
    intro loc rev iter endIdx loc' rev' h
    simp [get_reverse_go] at h
  | succ n ih =>
    intro loc rev iter endIdx loc' rev' h
    unfold get_reverse_go at h
    by_cases hie : iter = endIdx
    · simp only [hie, if_pos rfl] at h
      obtain ⟨h1, h2⟩ := Prod.mk.injEq .. ▸ Option.some.injEq .. ▸ h
      · subst h1; subst h2; rfl
    · rw [if_neg hie] at h
      cases hslot : loc.getD iter none with
      | some p =>
        rw [hslot] at h
        have hrec := ih _ _ _ _ _ _ h
        have hc := countSome_set_none loc iter
        rw [hslot] at hc
        simp only [Option.isSome_some, if_true] at hc
        have ha := countSome_append rev [some p]
        have hb : countSome [some p] = 1 := by simp [countSome]
        omega
      | none =>
        rw [hslot] at h
        dsimp only [] at h
        cases hv : loc.getD (abs_mod ((iter : Int) - 1) 12).toNat none with
        | none =>
          rw [hv] at h
          have hrec := ih _ _ _ _ _ _ h
          have hc := countSome_set_none loc (abs_mod ((iter : Int) - 1) 12).toNat
          rw [hv] at hc
          have ha := countSome_append rev [(none : Option Piece), none]
          have hb : countSome [(none : Option Piece), none] = 0 := by
            simp [countSome]
          simp only [Option.isSome_none, Bool.false_eq_true, if_false] at hc
          omega
        | some q =>
          rw [hv] at h
          have hrec := ih _ _ _ _ _ _ h
          have hc := countSome_set_none loc (abs_mod ((iter : Int) - 1) 12).toNat
          rw [hv] at hc
          have ha := countSome_append rev [some q, (none : Option Piece)]
          have hb : countSome [some q, (none : Option Piece)] = 1 := by
            simp [countSome]
          simp only [Option.isSome_some, if_true] at hc
          omega

/-- C7 (amended): `get_reverse` clones the borrowed layer and consumes
slots only from that clone: when the extraction loop returns, the pieces
of the reversed half are exactly the ones removed from the clone
(occupied-slot conservation), while the caller's source layer is returned
unchanged — the destructive take never reaches the caller's vector. -/
theorem get_reverse_clone_take (layer : List (Option Piece)) (offset : Int)
    (loc rev : List (Option Piece))
    (h : get_reverse_go 12 layer []
        (abs_mod (wrap8 (11 - offset)) 12).toNat
        (abs_mod (wrap8 (5 - offset)) 12).toNat = some (loc, rev)) :
    countSome loc + countSome rev = countSome layer ∧
      get_reverse layer offset = some (layer, rev) := by
  constructor
  · have := get_reverse_go_count 12 layer [] _ _ loc rev h
    simpa [countSome] using this
  · unfold get_reverse
    rw [h]
    rfl

/-- C7 (counterexample): on the solved top layer at offset 0 the
extraction consumes slot 6 (its corner shows up in the returned reversed
half), yet after the call the caller's layer — returned unchanged by
`get_reverse` — still holds that corner: no slot of the caller's vector
was set empty. -/
theorem get_reverse_source_cex :
    get_reverse (gen_layer true) 0
      = some (gen_layer true,
          [some (Piece.Edge ⟨(Color.Red, Color.White)⟩),
            some (Piece.Corner ⟨(Color.Blue, Color.Red, Color.White)⟩),
            none,
            some (Piece.Edge ⟨(Color.Blue, Color.White)⟩),
            some (Piece.Corner ⟨(Color.Orange, Color.Blue, Color.White)⟩),
            none])
      ∧ (gen_layer true).getD 6 none
          = some (Piece.Corner ⟨(Color.Orange, Color.Blue, Color.White)⟩) := by
  decide

/-- Witness for C7: the conservation equation instantiated on the solved
top layer at offset 0. -/
theorem get_reverse_clone_take_witness :
    countSome
        [some (Piece.Corner ⟨(Color.Red, Color.Green, Color.White)⟩),
          none,
          some (Piece.Edge ⟨(Color.Green, Color.White)⟩),
          some (Piece.Corner ⟨(Color.Green, Color.Orange, Color.White)⟩),
          none,
          some (Piece.Edge ⟨(Color.Orange, Color.White)⟩),
          none, none, none, none, none, none]
      + countSome
        [some (Piece.Edge ⟨(Color.Red, Color.White)⟩),
          some (Piece.Corner ⟨(Color.Blue, Color.Red, Color.White)⟩),
          none,
          some (Piece.Edge ⟨(Color.Blue, Color.White)⟩),
          some (Piece.Corner ⟨(Color.Orange, Color.Blue, Color.White)⟩),
          none]
      = countSome (gen_layer true) :=
  (get_reverse_clone_take (gen_layer true) 0 _ _ (by decide)).1

/-! ### C6: double flip of the solved state -/

/-- C6: flipping the freshly constructed solved state twice (no twist in
between) restores every slot of both layers and leaves `middle = false`. -/
theorem flip_flip_solved :
    ((flip SqOne.new).bind flip).map (fun s => (s.top, s.bottom, s.middle))
      = some (SqOne.new.top, SqOne.new.bottom, false) := by
  decide

end SqOneSpec

namespace SqOneSpec

/-! ### C10: the Display implementation -/

theorem strAppend_assoc (a b c : String) : a ++ b ++ c = a ++ (b ++ c) :=
  String.ext (by simp [String.data_append, List.append_assoc])

theorem strFold (l : List String) :
    ∀ a b, l.foldl (fun x y => x ++ y) (a ++ b)
      = a ++ l.foldl (fun x y => x ++ y) b := by
  induction l with
  | nil => intro a b; rfl
  | cons c l ih =>
    intro a b
    simp only [List.foldl_cons]
    rw [strAppend_assoc, ih]

/-- C10: the `Display` implementation for `Scramble` is total only on
non-empty turn sequences — on an empty vector `turns.len() - 1`
underflows and the formatter panics before rendering any pair (the `none`
case), while on every non-empty sequence it renders the pairs in tuple
form joined by `" / "` with no trailing separator. -/
theorem displayScramble_total_nonempty :
    displayScramble [] = none ∧
      ∀ (p : Int × Int) (rest : List (Int × Int)),
        displayScramble (p :: rest) = some (joinSep ((p :: rest).map fmtPair)) := by
  constructor
  · rfl
  · intro p rest
    induction rest generalizing p with
    | nil =>
      simp [displayScramble, joinSep, String.empty_append]
    | cons q ys ih =>
      have hih := ih q
      unfold displayScramble at hih ⊢
      simp only [List.length_cons, Nat.succ_ne_zero, if_false, Nat.add_sub_cancel,
        List.take_succ_cons, List.map_cons, List.foldl_cons,
        List.getD_cons_succ] at hih ⊢
      have hs := Option.some.inj hih
      rw [String.empty_append]
      rw [← String.append_empty (fmtPair p ++ " / "), strFold, strAppend_assoc, hs]
      simp [joinSep]

end SqOneSpec

namespace SqOneSpec

/-! ### C1 and C8: scramble draws -/

/-- Every value accepted by the rejection sampler lies in `[-5, 6]` (the
draws come from `gen_range(-5..6 + 1)`, and the dead `r == -6` remapping
cannot leave the range either). -/
theorem rand_layer_offset_bounds (g : Nat → Int) :
    ∀ (fuel k : Nat) (layer : List (Option Piece)) (offset r : Int) (k' : Nat),
      rand_layer_offset g fuel k layer offset = some (r, k') →
      -5 ≤ r ∧ r ≤ 6 := by
  intro fuel
  induction fuel with
  | zero =>
    intro k layer offset r k' h
    simp [rand_layer_offset] at h
  | succ n ih =>
    intro k layer offset r k' h
    unfold rand_layer_offset at h
    have h5 : 0 ≤ g k % 12 := Int.emod_nonneg _ (by norm_num)
    have h6 : g k % 12 < 12 := Int.emod_lt_of_pos _ (by norm_num)
    by_cases hc : can_flip_layer layer (wrap8 (-5 + g k % 12 + offset)) = true
    · rw [if_pos hc] at h
      obtain ⟨h1, h2⟩ := Prod.mk.injEq .. ▸ Option.some.injEq .. ▸ h
      subst h1
      by_cases h7 : (-5 + g k % 12 : Int) = -6
      · omega
      · rw [if_neg h7]
        omega
    · rw [if_neg hc] at h
      exact ih _ _ _ _ _ h

/-- The redraw loop returns a value that is in range and non-zero. -/
theorem redrawWhile_bounds_ne (g : Nat → Int) :
    ∀ (fuel : Nat) (layer : List (Option Piece)) (offset b : Int) (k : Nat)
      (b' : Int) (k' : Nat),
      redrawWhile g fuel layer offset b k = some (b', k') →
      -5 ≤ b → b ≤ 6 →
      -5 ≤ b' ∧ b' ≤ 6 ∧ b' ≠ 0 := by
  intro fuel
  induction fuel with
  | zero =>
    intro layer offset b k b' k' h hb1 hb2
    unfold redrawWhile at h
    by_cases hb : b = 0
    · simp [hb] at h
    · rw [if_neg hb] at h
      obtain ⟨h1, h2⟩ := Prod.mk.injEq .. ▸ Option.some.injEq .. ▸ h
      subst h1
      exact ⟨hb1, hb2, hb⟩
  | succ n ih =>
    intro layer offset b k b' k' h hb1 hb2
    unfold redrawWhile at h
    by_cases hb : b = 0
    · rw [if_pos hb] at h
      cases hr : rand_layer_offset g (n + 1) k layer offset with
      | none => rw [hr] at h; exact absurd h (by simp)
      | some v =>
        rw [hr] at h
        have hbv := rand_layer_offset_bounds g _ _ _ _ _ _ hr
        exact ih _ _ _ _ _ _ h hbv.1 hbv.2
    · rw [if_neg hb] at h
      obtain ⟨h1, h2⟩ := Prod.mk.injEq .. ▸ Option.some.injEq .. ▸ h
      subst h1
      exact ⟨hb1, hb2, hb⟩

/-- Core facts about the scramble loop: a completed run of `n` iterations
records exactly `n` pairs, every top component is a sampler value in
`[-5, 6]`, every bottom component is the negation of one (so it lies in
`[-6, 5]`), and whenever the top component is 0 the bottom component is
non-zero (the redraw guard). -/
theorem scrambleGo_spec (g : Nat → Int) (fuel : Nat) :
    ∀ (n : Nat) (s : SqOne) (k : Nat) (l : List (Int × Int)) (sF : SqOne),
      scrambleGo g fuel n s k = some (l, sF) →
      l.length = n ∧
        ∀ p ∈ l, (-5 ≤ p.1 ∧ p.1 ≤ 6 ∧ -6 ≤ p.2 ∧ p.2 ≤ 5) ∧
          (p.1 = 0 → p.2 ≠ 0) := by
  intro n
  induction n with
  | zero =>
    intro s k l sF h
    unfold scrambleGo at h
    obtain ⟨h1, h2⟩ := Prod.mk.injEq .. ▸ Option.some.injEq .. ▸ h
    subst h1
    simp
  | succ m ih =>
    intro s k l sF h
    unfold scrambleGo at h
    cases h1 : rand_layer_offset g fuel k s.top s.top_offset with
    | none => rw [h1] at h; exact absurd h (by simp)
    | some tk =>
      rw [h1] at h
      obtain ⟨t, k1⟩ := tk
      dsimp only [] at h
      cases h2 : rand_layer_offset g fuel k1 s.bottom s.bottom_offset with
      | none => rw [h2] at h; exact absurd h (by simp)
      | some bk =>
        rw [h2] at h
        obtain ⟨b0, k2⟩ := bk
        dsimp only [] at h
        cases h3 : (if t = 0 then redrawWhile g fuel s.bottom s.bottom_offset b0 k2
            else some (b0, k2)) with
        | none => rw [h3] at h; exact absurd h (by simp)
        | some bk3 =>
          rw [h3] at h
          obtain ⟨b, k3⟩ := bk3
          dsimp only [] at h
          cases h4 : flip (twist s t (-b)) with
          | none => rw [h4] at h; exact absurd h (by simp)
          | some s2 =>
            rw [h4] at h
            dsimp only [] at h
            cases h5 : scrambleGo g fuel m s2 k3 with
            | none => rw [h5] at h; exact absurd h (by simp)
            | some rl =>
              rw [h5] at h
              obtain ⟨rest, sF'⟩ := rl
              dsimp only [] at h
              obtain ⟨hl, hsF⟩ := Prod.mk.injEq .. ▸ Option.some.injEq .. ▸ h
              subst hl
              have hT := rand_layer_offset_bounds g _ _ _ _ _ _ h1
              have hB0 := rand_layer_offset_bounds g _ _ _ _ _ _ h2
              have hrest := ih _ _ _ _ h5
              have hB : -5 ≤ b ∧ b ≤ 6 ∧ (t = 0 → b ≠ 0) := by
                by_cases ht : t = 0
                · rw [if_pos ht] at h3
                  have := redrawWhile_bounds_ne g _ _ _ _ _ _ _ h3 hB0.1 hB0.2
                  exact ⟨this.1, this.2.1, fun _ => this.2.2⟩
                · rw [if_neg ht] at h3
                  obtain ⟨hb1, hb2⟩ := Prod.mk.injEq .. ▸ Option.some.injEq .. ▸ h3
                  subst hb1
                  exact ⟨hB0.1, hB0.2, fun hc => absurd hc ht⟩
              constructor
              · simp [hrest.1]
              · intro p hp
                rcases List.mem_cons.mp hp with hph | hpt
                · subst hph
                  refine ⟨⟨hT.1, hT.2, by omega, by omega⟩, ?_⟩
                  intro ht0
                  have := hB.2.2 ht0
                  simp only [ne_eq, neg_eq_zero]
                  exact this
                · exact hrest.2 p hpt

/-- C1 (amended): every completed run of `scramble` returns exactly 20
pairs; every top component lies in `[-5, 6]` and every bottom component —
the negation of the drawn bottom offset — lies in `[-6, 5]` (so a drawn
bottom offset of 6 is recorded as -6, outside `[-5, 6]`). -/
theorem scramble_twenty_pairs (g : Nat → Int) (fuel : Nat) (s : SqOne)
    (l : List (Int × Int))
    (h : (scramble g fuel s).map Prod.fst = some l) :
    l.length = 20 ∧ ∀ p ∈ l, -5 ≤ p.1 ∧ p.1 ≤ 6 ∧ -6 ≤ p.2 ∧ p.2 ≤ 5 := by
  cases hrun : scramble g fuel s with
  | none => rw [hrun] at h; exact absurd h (by simp)
  | some r =>
    rw [hrun] at h
    obtain ⟨l0, sF⟩ := r
    have hl : l0 = l := by simpa using h
    subst hl
    have := scrambleGo_spec g fuel 20 s 0 l0 sF hrun
    exact ⟨this.1, fun p hp => (this.2 p hp).1⟩

/-- C1 (counterexample): a completed run (20 pairs) whose first recorded
pair is `(1, -6)`: the recorded bottom component -6 lies outside
`[-5, 6]`, because the drawn bottom offset 6 is recorded negated. -/
theorem scramble_bottom_cex :
    ((scramble gCex 30 SqOne.new).map
        (fun r => decide (r.1.length = 20) && r.1.any (fun p => decide (p.2 < -5)))).getD
        false = true := by
  decide

/-- Witness for C1: a concrete completed run of the scramble and its
recorded pair count. -/
theorem scramble_twenty_pairs_witness :
    ([(-5, 3), (-1, 0), (3, -6), (-3, 0), (2, -3), (6, 4), (-1, 0), (1, -3),
      (6, 5), (-3, 1), (0, -3), (4, -6), (-2, 0), (2, -4), (6, 4), (-3, 2),
      (0, -3), (5, -6), (-4, 0), (1, -2)] : List (Int × Int)).length = 20 :=
  (scramble_twenty_pairs gCyc 30 SqOne.new
    [(-5, 3), (-1, 0), (3, -6), (-3, 0), (2, -3), (6, 4), (-1, 0), (1, -3),
      (6, 5), (-3, 1), (0, -3), (4, -6), (-2, 0), (2, -4), (6, 4), (-3, 2),
      (0, -3), (5, -6), (-4, 0), (1, -2)] (by decide)).1

/-- C8: in every completed run, a recorded pair whose top component is 0
has a non-zero bottom component (the redraw guard discards zero bottom
draws when the top draw was 0), and in particular the pair `(0, 0)` is
never returned. -/
theorem scramble_no_zero_zero (g : Nat → Int) (fuel : Nat) (s : SqOne)
    (l : List (Int × Int))
    (h : (scramble g fuel s).map Prod.fst = some l) :
    (∀ p ∈ l, p.1 = 0 → p.2 ≠ 0) ∧ ((0, 0) : Int × Int) ∉ l := by
  cases hrun : scramble g fuel s with
  | none => rw [hrun] at h; exact absurd h (by simp)
  | some r =>
    rw [hrun] at h
    obtain ⟨l0, sF⟩ := r
    have hl : l0 = l := by simpa using h
    subst hl
    have hspec := scrambleGo_spec g fuel 20 s 0 l0 sF hrun
    refine ⟨fun p hp => (hspec.2 p hp).2, fun hmem => ?_⟩
    exact (hspec.2 _ hmem).2 rfl rfl

/-- Witness for C8: a concrete run in which the first iteration drew top
0, a bottom 0 that was redrawn, and recorded `(0, -1)`; `(0, 0)` does not
occur in it. -/
theorem scramble_no_zero_zero_witness :
    ((0, 0) : Int × Int) ∉
      ([(0, -1), (-2, 1), (0, -1), (3, -6), (-3, 0), (1, -3), (4, -6), (-5, 4),
        (-2, 1), (0, -5), (6, 5), (-4, 0), (2, -3), (6, 4), (-3, 2), (0, -4),
        (6, 4), (0, -2), (4, -6), (-4, 2)] : List (Int × Int)) :=
  (scramble_no_zero_zero gZero 30 SqOne.new
    [(0, -1), (-2, 1), (0, -1), (3, -6), (-3, 0), (1, -3), (4, -6), (-5, 4),
      (-2, 1), (0, -5), (6, 5), (-4, 0), (2, -3), (6, 4), (-3, 2), (0, -4),
      (6, 4), (0, -2), (4, -6), (-4, 2)] (by decide)).2

end SqOneSpec

namespace SqOneSpec

/-! ### C4: the possibility invariant -/

theorem getD_none_mem_or (l : List (Option Piece)) (i : Nat) :
    l.getD i none = none ∨ l.getD i none ∈ l := by
  induction l generalizing i with
  | nil => simp [List.getD]
  | cons a l ih =>
    cases i with
    | zero => simp [List.getD_cons_zero]
    | succ n =>
      rw [List.getD_cons_succ]
      rcases ih n with h | h
      · exact Or.inl h
      · exact Or.inr (List.mem_cons_of_mem a h)

/-- Everything the extraction loop ever appends is either an empty marker
or a value read out of the local clone, hence (by induction) a value of
the original layer. -/
theorem get_reverse_go_subset (U : List (Option Piece)) :
    ∀ (fuel : Nat) (loc rev : List (Option Piece)) (iter endIdx : Nat)
      (loc' rev' : List (Option Piece)),
      get_reverse_go fuel loc rev iter endIdx = some (loc', rev') →
      (∀ x ∈ loc, x = none ∨ x ∈ U) →
      (∀ x ∈ rev, x = none ∨ x ∈ U) →
      ∀ x ∈ rev', x = none ∨ x ∈ U := by
  intro fuel
  induction fuel with
  | zero =>
    intro loc rev iter endIdx loc' rev' h
    simp [get_reverse_go] at h
  | succ n ih =>
    intro loc rev iter endIdx loc' rev' h hloc hrev
    unfold get_reverse_go at h
    by_cases hie : iter = endIdx
    · simp only [hie, if_pos rfl] at h
      obtain ⟨h1, h2⟩ := Prod.mk.injEq .. ▸ Option.some.injEq .. ▸ h
      subst h2
      exact hrev
    · rw [if_neg hie] at h
      cases hslot : loc.getD iter none with
      | some p =>
        rw [hslot] at h
        refine ih _ _ _ _ _ _ h ?_ ?_
        · intro x hx
          rcases List.mem_or_eq_of_mem_set hx with hx' | hx'
          · exact hloc x hx'
          · exact Or.inl hx'
        · intro x hx
          rcases List.mem_append.mp hx with hx' | hx'
          · exact hrev x hx'
          · have hxp : x = some p := by simpa using hx'
            subst hxp
            rcases getD_none_mem_or loc iter with hg | hg
            · rw [hslot] at hg; exact absurd hg (by simp)
            · rw [hslot] at hg; exact hloc _ hg
      | none =>
        rw [hslot] at h
        dsimp only [] at h
        refine ih _ _ _ _ _ _ h ?_ ?_
        · intro x hx
          rcases List.mem_or_eq_of_mem_set hx with hx' | hx'
          · exact hloc x hx'
          · exact Or.inl hx'
        · intro x hx
          rcases List.mem_append.mp hx with hx' | hx'
          · exact hrev x hx'
          · rcases List.mem_cons.mp hx' with hx2 | hx2
            · subst hx2
              rcases getD_none_mem_or loc
                  (abs_mod ((iter : Int) - 1) 12).toNat with hg | hg
              · exact Or.inl hg
              · exact hloc _ hg
            · have : x = none := by simpa using hx2
              exact Or.inl this

/-- Membership through an index-write fold like the redistribution loop of
`flip`: every slot of the result comes from the original list, is an empty
marker, or is an entry of the written sequence. -/
theorem foldl_set_subset (r : List (Option Piece)) (f : Nat → Nat) :
    ∀ (ns : List Nat) (t : List (Option Piece)) (x : Option Piece),
      x ∈ ns.foldl (fun acc j => acc.set (f j) (r.getD j none)) t →
      x ∈ t ∨ x = none ∨ x ∈ r := by
  intro ns
  induction ns with
  | nil =>
    intro t x hx
    exact Or.inl hx
  | cons n ns ih =>
    intro t x hx
    rw [List.foldl_cons] at hx
    rcases ih _ _ hx with hx' | hx' | hx'
    · rcases List.mem_or_eq_of_mem_set hx' with hx2 | hx2
      · exact Or.inl hx2
      · subst hx2
        rcases getD_none_mem_or r n with hg | hg
        · exact Or.inr (Or.inl hg)
        · exact Or.inr (Or.inr hg)
    · exact Or.inr (Or.inl hx')
    · exact Or.inr (Or.inr hx')

theorem writeHalf_subset (t : List (Option Piece)) (o : Int)
    (r : List (Option Piece)) (x : Option Piece) (hx : x ∈ writeHalf t o r) :
    x ∈ t ∨ x = none ∨ x ∈ r := by
  unfold writeHalf at hx
  exact foldl_set_subset r _ _ _ _ hx

/-- A successful `flip` only rearranges: every slot value of the result
state was already a slot value of one of the two input layers (or is an
empty marker). -/
theorem flip_subset (s s' : SqOne) (h : flip s = some s') :
    (∀ x ∈ s'.top, x = none ∨ x ∈ s.top ∨ x ∈ s.bottom) ∧
      (∀ x ∈ s'.bottom, x = none ∨ x ∈ s.top ∨ x ∈ s.bottom) := by
  unfold flip at h
  by_cases hcf : can_flip s = true
  · rw [if_pos hcf] at h
    cases hgt : get_reverse s.top s.top_offset with
    | none => rw [hgt] at h; exact absurd h (by simp)
    | some rt =>
      rw [hgt] at h
      cases hgb : get_reverse s.bottom s.bottom_offset with
      | none => rw [hgb] at h; exact absurd h (by simp)
      | some rb =>
        rw [hgb] at h
        obtain ⟨topAfter, top_reverse⟩ := rt
        obtain ⟨botAfter, bottom_reverse⟩ := rb
        dsimp only [] at h
        by_cases hlen : 6 ≤ top_reverse.length ∧ 6 ≤ bottom_reverse.length
        · rw [if_pos hlen] at h
          have hs' := (Option.some.injEq .. ▸ h).symm
          -- unpack the two get_reverse calls
          unfold get_reverse at hgt hgb
          cases hgo_t : get_reverse_go 12 s.top []
              (abs_mod (wrap8 (11 - s.top_offset)) 12).toNat
              (abs_mod (wrap8 (5 - s.top_offset)) 12).toNat with
          | none => rw [hgo_t] at hgt; exact absurd hgt (by simp)
          | some pt =>
            rw [hgo_t] at hgt
            cases hgo_b : get_reverse_go 12 s.bottom []
                (abs_mod (wrap8 (11 - s.bottom_offset)) 12).toNat
                (abs_mod (wrap8 (5 - s.bottom_offset)) 12).toNat with
            | none => rw [hgo_b] at hgb; exact absurd hgb (by simp)
            | some pb =>
              rw [hgo_b] at hgb
              simp only [Option.map, Option.some.injEq, Prod.mk.injEq] at hgt hgb
              have htr : top_reverse = pt.2 := hgt.2.symm
              have hbr : bottom_reverse = pb.2 := hgb.2.symm
              have htA : topAfter = s.top := hgt.1.symm
              have hbA : botAfter = s.bottom := hgb.1.symm
              have htsub : ∀ x ∈ top_reverse, x = none ∨ x ∈ s.top := by
                rw [htr]
                intro x hx
                exact get_reverse_go_subset s.top 12 s.top [] _ _ pt.1 pt.2
                  (by rw [← Prod.mk.eta (p := pt)] at hgo_t; exact hgo_t)
                  (fun y hy => Or.inr hy) (by simp) x hx
              have hbsub : ∀ x ∈ bottom_reverse, x = none ∨ x ∈ s.bottom := by
                rw [hbr]
                intro x hx
                exact get_reverse_go_subset s.bottom 12 s.bottom [] _ _ pb.1 pb.2
                  (by rw [← Prod.mk.eta (p := pb)] at hgo_b; exact hgo_b)
                  (fun y hy => Or.inr hy) (by simp) x hx
              subst hs'
              constructor
              · intro x hx
                simp only [] at hx
                rw [htA] at hx
                rcases writeHalf_subset _ _ _ _ hx with h1 | h1 | h1
                · exact Or.inr (Or.inl h1)
                · exact Or.inl h1
                · rcases hbsub x h1 with h2 | h2
                  · exact Or.inl h2
                  · exact Or.inr (Or.inr h2)
              · intro x hx
                simp only [] at hx
                rw [hbA] at hx
                rcases writeHalf_subset _ _ _ _ hx with h1 | h1 | h1
                · exact Or.inr (Or.inr h1)
                · exact Or.inl h1
                · rcases htsub x h1 with h2 | h2
                  · exact Or.inl h2
                  · exact Or.inr (Or.inl h2)
        · rw [if_neg hlen] at h
          exact absurd h (by simp)
  · simp only [Bool.not_eq_true] at hcf
    rw [hcf] at h
    simp only [Bool.false_eq_true, if_false] at h
    have hs : s = s' := Option.some.inj h
    subst hs
    constructor
    · intro x hx; exact Or.inr (Or.inl hx)
    · intro x hx; exact Or.inr (Or.inr hx)

/-- `pieces_possible` survives a successful `flip`. -/
theorem pieces_possible_flip (s s' : SqOne) (h : flip s = some s')
    (hp : pieces_possible s = true) : pieces_possible s' = true := by
  unfold pieces_possible at hp ⊢
  rw [Bool.and_eq_true, List.all_eq_true, List.all_eq_true] at hp ⊢
  obtain ⟨hpt, hpb⟩ := hp
  have hsub := flip_subset s s' h
  constructor
  · intro x hx
    rcases hsub.1 x hx with h1 | h1 | h1
    · subst h1; rfl
    · exact hpt x h1
    · exact hpb x h1
  · intro x hx
    rcases hsub.2 x hx with h1 | h1 | h1
    · subst h1; rfl
    · exact hpt x h1
    · exact hpb x h1

/-- `scrambleGo` only walks through reachable states. -/
theorem scrambleGo_reachable (g : Nat → Int) (fuel : Nat) :
    ∀ (n : Nat) (s : SqOne) (k : Nat) (l : List (Int × Int)) (sF : SqOne),
      scrambleGo g fuel n s k = some (l, sF) → Reachable s → Reachable sF := by
  intro n
  induction n with
  | zero =>
    intro s k l sF h hr
    unfold scrambleGo at h
    obtain ⟨h1, h2⟩ := Prod.mk.injEq .. ▸ Option.some.injEq .. ▸ h
    subst h2
    exact hr
  | succ m ih =>
    intro s k l sF h hr
    unfold scrambleGo at h
    cases h1 : rand_layer_offset g fuel k s.top s.top_offset with
    | none => rw [h1] at h; exact absurd h (by simp)
    | some tk =>
      rw [h1] at h
      obtain ⟨t, k1⟩ := tk
      dsimp only [] at h
      cases h2 : rand_layer_offset g fuel k1 s.bottom s.bottom_offset with
      | none => rw [h2] at h; exact absurd h (by simp)
      | some bk =>
        rw [h2] at h
        obtain ⟨b0, k2⟩ := bk
        dsimp only [] at h
        cases h3 : (if t = 0 then redrawWhile g fuel s.bottom s.bottom_offset b0 k2
            else some (b0, k2)) with
        | none => rw [h3] at h; exact absurd h (by simp)
        | some bk3 =>
          rw [h3] at h
          obtain ⟨b, k3⟩ := bk3
          dsimp only [] at h
          cases h4 : flip (twist s t (-b)) with
          | none => rw [h4] at h; exact absurd h (by simp)
          | some s2 =>
            rw [h4] at h
            dsimp only [] at h
            cases h5 : scrambleGo g fuel m s2 k3 with
            | none => rw [h5] at h; exact absurd h (by simp)
            | some rl =>
              rw [h5] at h
              obtain ⟨rest, sF'⟩ := rl
              dsimp only [] at h
              obtain ⟨hl, hsF⟩ := Prod.mk.injEq .. ▸ Option.some.injEq .. ▸ h
              subst hsF
              exact ih _ _ _ _ h5
                (Reachable.flip _ _ (Reachable.twist s t (-b) hr) h4)

/-- C4: every piece of the freshly constructed state satisfies the
possibility invariant; the invariant is preserved by every sequence of
`twist` and `flip` operations (every reachable state satisfies it); and
it still holds for the final state of every completed `scramble()` run
from the solved state. -/
theorem pieces_possible_invariant :
    pieces_possible SqOne.new = true ∧
      (∀ s, Reachable s → pieces_possible s = true) ∧
      (∀ (g : Nat → Int) (fuel : Nat) (l : List (Int × Int)) (sF : SqOne),
        scramble g fuel SqOne.new = some (l, sF) → pieces_possible sF = true) := by
  have hreach : ∀ s, Reachable s → pieces_possible s = true := by
    intro s h
    induction h with
    | init => decide
    | twist s a b hr ih => exact ih
    | flip s s' hr hf ih => exact pieces_possible_flip s s' hf ih
  refine ⟨by decide, hreach, ?_⟩
  intro g fuel l sF h
  exact hreach sF (scrambleGo_reachable g fuel 20 SqOne.new 0 l sF h Reachable.init)

/-- Witness for C4 at a concrete reachable state. -/
theorem pieces_possible_invariant_witness :
    pieces_possible (twist SqOne.new 3 1) = true :=
  pieces_possible_invariant.2.1 (twist SqOne.new 3 1)
    (Reachable.twist SqOne.new 3 1 Reachable.init)

end SqOneSpec

namespace SqOneSpec

/-! ### C3: legal offsets of reachable states -/

theorem getD_set_self {α : Type} (l : List α) (i : Nat) (a d : α)
    (h : i < l.length) : (l.set i a).getD i d = a := by
  induction l generalizing i with
  | nil => simp at h
  | cons b l ih =>
    cases i with
    | zero => simp [List.set]
    | succ n =>
      simp only [List.set, List.getD_cons_succ]
      exact ih n (by simpa using h)

theorem getD_set_ne {α : Type} (l : List α) (i j : Nat) (a d : α)
    (h : i ≠ j) : (l.set i a).getD j d = l.getD j d := by
  induction l generalizing i j with
  | nil => simp [List.set]
  | cons b l ih =>
    cases i with
    | zero =>
      cases j with
      | zero => exact absurd rfl h
      | succ m => simp [List.set]
    | succ n =>
      cases j with
      | zero => simp [List.set]
      | succ m =>
        simp only [List.set, List.getD_cons_succ]
        exact ih n m (fun hc => h (by rw [hc]))

theorem getD_map_isCorner (L : List (Option Piece)) (i : Nat) :
    (L.map isCorner).getD i false = isCorner (L.getD i none) := by
  induction L generalizing i with
  | nil => simp [List.getD, isCorner]
  | cons a l ih =>
    cases i with
    | zero => simp [List.getD_cons_zero]
    | succ n => simp only [List.map_cons, List.getD_cons_succ]; exact ih n

theorem can_flip_layer_eq_mask (L : List (Option Piece)) (o : Int) :
    can_flip_layer L o = can_flip_mask (L.map isCorner) o := by
  unfold can_flip_layer can_flip_mask
  rw [getD_map_isCorner, getD_map_isCorner]
  cases h1 : isCorner (L.getD (abs_mod (wrap8 (5 - o)) 12).toNat none) <;>
    cases h2 : isCorner (L.getD (abs_mod (wrap8 (11 - o)) 12).toNat none) <;>
    simp

theorem legalCount_eq_mask (L : List (Option Piece)) :
    legalCount L = legalCountMask (L.map isCorner) := by
  unfold legalCount legalCountMask
  congr 1
  apply List.filter_congr
  intro k _
  rw [can_flip_layer_eq_mask]

theorem checkLists_spec :
    ∀ (n : Nat) (P : List Bool → Bool), checkLists n P = true →
      ∀ l : List Bool, l.length = n → P l = true := by
  intro n
  induction n with
  | zero =>
    intro P h l hl
    rw [List.length_eq_zero] at hl
    subst hl
    exact h
  | succ m ih =>
    intro P h l hl
    cases l with
    | nil => simp at hl
    | cons b bs =>
      unfold checkLists at h
      rw [Bool.and_eq_true] at h
      cases b
      · exact ih _ h.2 bs (by simpa using hl)
      · exact ih _ h.1 bs (by simpa using hl)

set_option maxHeartbeats 4000000 in
/-- Exhaustive check over the 4096 corner masks: every mask in which no
two circularly adjacent positions are both corners admits at least 2
flippable offsets. -/
theorem mask_enum_two_legal :
    checkLists 12 (fun m => !(adjFree m) || decide (2 ≤ legalCountMask m)) = true := by
  decide

/-- Bridge from the Bool-valued `layer_wf` to its components. -/
theorem layer_wf_spec (L : List (Option Piece)) (h : layer_wf L = true) :
    L.length = 12 ∧
      ∀ i, i < 12 →
        (L.getD i none = none ↔ isCorner (L.getD ((i + 11) % 12) none) = true) := by
  unfold layer_wf at h
  rw [Bool.and_eq_true, List.all_eq_true] at h
  constructor
  · have := h.1
    simpa using this
  · intro i hi
    have hb := h.2 i (List.mem_range.mpr hi)
    rw [beq_iff_eq] at hb
    constructor
    · intro hn
      rw [← hb]
      exact decide_eq_true hn
    · intro hc
      exact of_decide_eq_true (hb.trans hc)

/-- Converse bridge: build `layer_wf` from its components. -/
theorem layer_wf_of_spec (L : List (Option Piece)) (h1 : L.length = 12)
    (h2 : ∀ i, i < 12 →
      (L.getD i none = none ↔ isCorner (L.getD ((i + 11) % 12) none) = true)) :
    layer_wf L = true := by
  unfold layer_wf
  rw [Bool.and_eq_true, List.all_eq_true]
  constructor
  · simpa using h1
  · intro i hi
    rw [List.mem_range] at hi
    rw [beq_iff_eq]
    by_cases hn : L.getD i none = none
    · rw [decide_eq_true hn]
      exact ((h2 i hi).mp hn).symm
    · rw [decide_eq_false hn]
      cases hc : isCorner (L.getD ((i + 11) % 12) none)
      · rfl
      · exact absurd ((h2 i hi).mpr hc) hn

theorem adjFree_of_wf (L : List (Option Piece)) (h : layer_wf L = true) :
    adjFree (L.map isCorner) = true := by
  obtain ⟨_, hwf⟩ := layer_wf_spec L h
  unfold adjFree
  rw [List.all_eq_true]
  intro i hi
  rw [List.mem_range] at hi
  rw [getD_map_isCorner, getD_map_isCorner]
  by_cases hc : isCorner (L.getD i none) = true
  · have hidx : (((i + 1) % 12 + 11) % 12) = i := by omega
    have h2 := hwf ((i + 1) % 12) (by omega)
    rw [hidx] at h2
    have hnone := h2.mpr hc
    rw [hnone]
    simp [isCorner]
  · rw [Bool.not_eq_true] at hc
    rw [hc]
    simp

/-- A well-formed 12-slot layer admits at least 2 flippable offsets. -/
theorem legalCount_ge_two (L : List (Option Piece)) (h : layer_wf L = true) :
    2 ≤ legalCount L := by
  rw [legalCount_eq_mask]
  have hlen : (L.map isCorner).length = 12 := by
    rw [List.length_map]
    exact (layer_wf_spec L h).1
  have hchk := checkLists_spec 12 _ mask_enum_two_legal (L.map isCorner) hlen
  rw [adjFree_of_wf L h] at hchk
  simpa using hchk

end SqOneSpec

namespace SqOneSpec

theorem pred_idx (m : Nat) :
    (abs_mod ((m : Int) - 1) 12).toNat = (m + 11) % 12 := by
  unfold abs_mod
  omega

theorem isCorner_ne_none (v : Option Piece) (h : isCorner v = true) : v ≠ none := by
  cases v with
  | none => simp [isCorner] at h
  | some p => simp

theorem revOK_nil : revOK [] := by
  constructor
  · intro j hj
    simp at hj
  · exact Or.inl rfl

theorem revOK_snoc_some (rev : List (Option Piece)) (p : Piece)
    (hOK : revOK rev) (hpc : isCorner (some p) = false) :
    revOK (rev ++ [some p]) := by
  obtain ⟨h1, h2⟩ := hOK
  have hlen : (rev ++ [some p]).length = rev.length + 1 := by simp
  constructor
  · intro j hj
    rw [hlen] at hj
    by_cases hjl : j < rev.length
    · rw [List.getD_append _ _ _ _ hjl, List.getD_append _ _ _ _ (by omega)]
      exact h1 j hjl
    · have hje : j = rev.length := by omega
      subst hje
      rw [List.getD_append_right _ _ _ _ (by omega), Nat.sub_self]
      simp only [List.getD_cons_zero]
      constructor
      · intro hc
        exact absurd hc (by simp)
      · rintro ⟨hj1, hjc⟩
        rcases h2 with h2 | h2
        · subst h2; simp at hj1
        · rw [List.getD_append _ _ _ _ (by omega)] at hjc
          rw [hjc] at h2
          simp at h2
  · right
    rw [hlen, Nat.add_sub_cancel,
      List.getD_append_right _ _ _ _ (le_refl _), Nat.sub_self]
    simpa using hpc

theorem revOK_snoc_corner (rev : List (Option Piece)) (v : Option Piece)
    (hv : isCorner v = true) (hOK : revOK rev) :
    revOK (rev ++ [v, none]) := by
  obtain ⟨h1, h2⟩ := hOK
  have hvne := isCorner_ne_none v hv
  have hlen : (rev ++ [v, none]).length = rev.length + 2 := by simp
  constructor
  · intro j hj
    rw [hlen] at hj
    by_cases hjl : j < rev.length
    · rw [List.getD_append _ _ _ _ hjl, List.getD_append _ _ _ _ (by omega)]
      exact h1 j hjl
    · by_cases hje : j = rev.length
      · subst hje
        rw [List.getD_append_right _ _ _ _ (by omega), Nat.sub_self]
        simp only [List.getD_cons_zero]
        constructor
        · intro hc
          exact absurd hc hvne
        · rintro ⟨hj1, hjc⟩
          rcases h2 with h2 | h2
          · subst h2; simp at hj1
          · rw [List.getD_append _ _ _ _ (by omega)] at hjc
            rw [hjc] at h2
            simp at h2
      · have hje2 : j = rev.length + 1 := by omega
        subst hje2
        rw [List.getD_append_right _ _ _ _ (by omega),
          show rev.length + 1 - rev.length = 1 from by omega]
        simp only [List.getD_cons_succ, List.getD_cons_zero]
        constructor
        · intro _
          refine ⟨by omega, ?_⟩
          rw [Nat.add_sub_cancel,
            List.getD_append_right _ _ _ _ (le_refl _), Nat.sub_self]
          simpa using hv
        · intro _
          trivial
  · right
    rw [hlen, show rev.length + 2 - 1 = rev.length + 1 from by omega,
      List.getD_append_right _ _ _ _ (by omega),
      show rev.length + 1 - rev.length = 1 from by omega]
    simp [isCorner]

theorem get_reverse_go_wf
    (L : List (Option Piece)) (endI : Nat)
    (hend : endI < 12)
    (hwf : ∀ i, i < 12 →
      (L.getD i none = none ↔ isCorner (L.getD ((i + 11) % 12) none) = true))
    (hendC : isCorner (L.getD endI none) = false)
    (hstartC : isCorner (L.getD ((endI + 6) % 12) none) = false) :
    ∀ d, d ≤ 6 →
      ∀ fuel, d + 1 ≤ fuel →
      ∀ loc rev, loc.length = 12 →
        (∀ k, 1 ≤ k → k ≤ d →
          loc.getD ((endI + k) % 12) none = L.getD ((endI + k) % 12) none) →
        (d = 6 ∨ L.getD ((endI + d + 1) % 12) none ≠ none) →
        revOK rev →
        ∃ loc' ext,
          get_reverse_go fuel loc rev ((endI + d) % 12) endI
              = some (loc', rev ++ ext)
            ∧ ext.length = d ∧ revOK (rev ++ ext) := by
  intro d
  induction d using Nat.strong_induction_on with
  | _ d ih =>
    intro hd6 fuel hfuel loc rev hloc hagree hnext hOK
    match d, hfuel with
    | 0, _ =>
      cases fuel with
      | zero => omega
      | succ f =>
        refine ⟨loc, [], ?_, rfl, by simpa using hOK⟩
        rw [show (endI + 0) % 12 = endI from by omega]
        unfold get_reverse_go
        rw [if_pos rfl, List.append_nil]
    | d' + 1, _ =>
      have hd : d' + 1 ≤ 6 := hd6
      cases fuel with
      | zero => omega
      | succ f =>
        have hiter_ne : (endI + (d' + 1)) % 12 ≠ endI := by omega
        have hread : loc.getD ((endI + (d' + 1)) % 12) none
            = L.getD ((endI + (d' + 1)) % 12) none :=
          hagree (d' + 1) (by omega) (le_refl _)
        cases hslot : L.getD ((endI + (d' + 1)) % 12) none with
        | some p =>
          have hpc : isCorner (some p) = false := by
            by_contra hc
            rw [Bool.not_eq_false] at hc
            rcases hnext with h6 | hne
            · rw [h6] at hslot
              rw [hslot] at hstartC
              rw [hc] at hstartC
              exact absurd hstartC (by simp)
            · have hi : (endI + (d' + 1) + 1) % 12 < 12 := by omega
              have hrel : ((endI + (d' + 1) + 1) % 12 + 11) % 12
                  = (endI + (d' + 1)) % 12 := by omega
              have h2 := hwf ((endI + (d' + 1) + 1) % 12) hi
              rw [hrel, hslot, hc] at h2
              exact hne (h2.mpr rfl)
          have hsub := ih d' (by omega) (by omega) f (by omega)
            (loc.set ((endI + (d' + 1)) % 12) none) (rev ++ [some p])
            (by simpa using hloc)
            (by
              intro k hk1 hk2
              rw [getD_set_ne _ _ _ _ _ (by omega)]
              exact hagree k hk1 (by omega))
            (Or.inr (by
              rw [show (endI + d' + 1) % 12 = (endI + (d' + 1)) % 12 from by omega,
                hslot]
              simp))
            (revOK_snoc_some rev p hOK hpc)
          obtain ⟨loc', ext', hgo, hext', hOK'⟩ := hsub
          have hcat : (rev ++ [some p]) ++ ext' = rev ++ (some p :: ext') := by
            simp [List.append_assoc]
          refine ⟨loc', some p :: ext', ?_, by simp [hext'], by rwa [hcat] at hOK'⟩
          unfold get_reverse_go
          rw [if_neg hiter_ne, hread, hslot]
          dsimp only []
          rw [pred_idx ((endI + (d' + 1)) % 12),
            show ((endI + (d' + 1)) % 12 + 11) % 12 = (endI + d') % 12 from by omega]
          rw [hgo, hcat]
        | none =>
          match d', hd with
          | 0, _ =>
            exfalso
            have hi : (endI + 1) % 12 < 12 := by omega
            have hrel : ((endI + 1) % 12 + 11) % 12 = endI := by omega
            have h2 := hwf ((endI + 1) % 12) hi
            rw [hrel] at h2
            have hcor := h2.mp hslot
            rw [hendC] at hcor
            exact absurd hcor (by simp)
          | d'' + 1, _ =>
            -- the slot below is the owning corner
            have hi : (endI + (d'' + 2)) % 12 < 12 := by omega
            have hrel : ((endI + (d'' + 2)) % 12 + 11) % 12
                = (endI + (d'' + 1)) % 12 := by omega
            have h2 := hwf ((endI + (d'' + 2)) % 12) hi
            rw [hrel] at h2
            have hcorner : isCorner (L.getD ((endI + (d'' + 1)) % 12) none) = true :=
              h2.mp hslot
            have hreadj : loc.getD ((endI + (d'' + 1)) % 12) none
                = L.getD ((endI + (d'' + 1)) % 12) none :=
              hagree (d'' + 1) (by omega) (by omega)
            have hvne : L.getD ((endI + (d'' + 1)) % 12) none ≠ none :=
              isCorner_ne_none _ hcorner
            have hsub := ih d'' (by omega) (by omega) f (by omega)
              (loc.set ((endI + (d'' + 1)) % 12) none)
              (rev ++ [L.getD ((endI + (d'' + 1)) % 12) none, none])
              (by simpa using hloc)
              (by
                intro k hk1 hk2
                rw [getD_set_ne _ _ _ _ _ (by omega)]
                exact hagree k hk1 (by omega))
              (Or.inr (by
                rw [show (endI + d'' + 1) % 12 = (endI + (d'' + 1)) % 12 from by omega]
                exact hvne))
              (revOK_snoc_corner rev _ hcorner hOK)
            obtain ⟨loc', ext', hgo, hext', hOK'⟩ := hsub
            have hcat : (rev ++ [L.getD ((endI + (d'' + 1)) % 12) none, none]) ++ ext'
                = rev ++ (L.getD ((endI + (d'' + 1)) % 12) none :: none :: ext') := by
              simp [List.append_assoc]
            refine ⟨loc', L.getD ((endI + (d'' + 1)) % 12) none :: none :: ext',
              ?_, by simp [hext'], by rwa [hcat] at hOK'⟩
            unfold get_reverse_go
            rw [if_neg hiter_ne, hread, hslot]
            dsimp only []
            rw [pred_idx ((endI + (d'' + 2)) % 12),
              show ((endI + (d'' + 2)) % 12 + 11) % 12 = (endI + (d'' + 1)) % 12
                from by omega]
            rw [hreadj]
            rw [pred_idx ((endI + (d'' + 1)) % 12),
              show ((endI + (d'' + 1)) % 12 + 11) % 12 = (endI + d'') % 12
                from by omega]
            rw [hgo, hcat]

end SqOneSpec

namespace SqOneSpec

theorem can_flip_layer_parts (L : List (Option Piece)) (o : Int)
    (h : can_flip_layer L o = true) :
    isCorner (L.getD (abs_mod (wrap8 (5 - o)) 12).toNat none) = false ∧
      isCorner (L.getD (abs_mod (wrap8 (11 - o)) 12).toNat none) = false := by
  unfold can_flip_layer at h
  cases h1 : isCorner (L.getD (abs_mod (wrap8 (5 - o)) 12).toNat none) with
  | true => rw [h1] at h; simp at h
  | false =>
    cases h2 : isCorner (L.getD (abs_mod (wrap8 (11 - o)) 12).toNat none) with
    | true => rw [h1, h2] at h; simp at h
    | false => exact ⟨rfl, rfl⟩

theorem absmod_toNat_lt (x : Int) : (abs_mod x 12).toNat < 12 := by
  unfold abs_mod
  omega

theorem startIdx_eq (o : Int) (h1 : -5 ≤ o) (h2 : o ≤ 6) :
    (abs_mod (wrap8 (11 - o)) 12).toNat
      = ((abs_mod (wrap8 (5 - o)) 12).toNat + 6) % 12 := by
  rw [wrap8_eq_self (11 - o) (by omega) (by omega),
    wrap8_eq_self (5 - o) (by omega) (by omega)]
  unfold abs_mod
  omega

theorem writeIdx_eq (o : Int) (h1 : -5 ≤ o) (h2 : o ≤ 6) (j : Nat) (hj : j < 6) :
    (abs_mod (wrap8 ((6 + (j : Int)) - o)) 12).toNat
      = ((abs_mod (wrap8 (5 - o)) 12).toNat + 1 + j) % 12 := by
  rw [wrap8_eq_self ((6 + (j : Int)) - o) (by omega) (by omega),
    wrap8_eq_self (5 - o) (by omega) (by omega)]
  unfold abs_mod
  omega

/-- On a well-formed layer whose cut is legal, `get_reverse` returns the
caller's layer unchanged together with a well-formed reversed half of
exactly 6 entries. -/
theorem get_reverse_wf (L : List (Option Piece)) (o : Int)
    (hwfL : layer_wf L = true) (ho1 : -5 ≤ o) (ho2 : o ≤ 6)
    (hcf : can_flip_layer L o = true) :
    ∃ rev, get_reverse L o = some (L, rev) ∧ rev.length = 6 ∧ revOK rev := by
  obtain ⟨hlen, hwf⟩ := layer_wf_spec L hwfL
  obtain ⟨hc1, hc2⟩ := can_flip_layer_parts L o hcf
  have hel : (abs_mod (wrap8 (5 - o)) 12).toNat < 12 := absmod_toNat_lt _
  have hstart := startIdx_eq o ho1 ho2
  rw [hstart] at hc2
  have hgo := get_reverse_go_wf L (abs_mod (wrap8 (5 - o)) 12).toNat hel hwf hc1 hc2
    6 (le_refl _) 12 (by omega) L [] hlen (fun k _ _ => rfl) (Or.inl rfl) revOK_nil
  obtain ⟨loc', ext, hgo_eq, hext, hOK⟩ := hgo
  refine ⟨ext, ?_, hext, by simpa using hOK⟩
  unfold get_reverse
  rw [hstart, hgo_eq]
  simp

/-- Writing a well-formed 6-entry reversed half into the back window of a
well-formed layer with a legal cut yields a well-formed layer. -/
theorem writeHalf_wf (T : List (Option Piece)) (o : Int) (rev : List (Option Piece))
    (hwfT : layer_wf T = true) (ho1 : -5 ≤ o) (ho2 : o ≤ 6)
    (hr : rev.length = 6) (hOK : revOK rev)
    (hc1 : isCorner (T.getD (abs_mod (wrap8 (5 - o)) 12).toNat none) = false)
    (hc2 : isCorner (T.getD (abs_mod (wrap8 (11 - o)) 12).toNat none) = false) :
    layer_wf (writeHalf T o rev) = true := by
  obtain ⟨hTlen, hTwf⟩ := layer_wf_spec T hwfT
  have hel : (abs_mod (wrap8 (5 - o)) 12).toNat < 12 := absmod_toNat_lt _
  rw [startIdx_eq o ho1 ho2] at hc2
  -- abbreviate the cut index
  generalize he : (abs_mod (wrap8 (5 - o)) 12).toNat = e at hel hc1 hc2
  -- the redistribution as an explicit chain of six writes
  have hw : writeHalf T o rev
      = (((((T.set ((e + 1 + 0) % 12) (rev.getD 0 none)).set
            ((e + 1 + 1) % 12) (rev.getD 1 none)).set
            ((e + 1 + 2) % 12) (rev.getD 2 none)).set
            ((e + 1 + 3) % 12) (rev.getD 3 none)).set
            ((e + 1 + 4) % 12) (rev.getD 4 none)).set
            ((e + 1 + 5) % 12) (rev.getD 5 none) := by
    unfold writeHalf
    rw [show List.range 6 = [0, 1, 2, 3, 4, 5] from rfl]
    simp only [List.foldl_cons, List.foldl_nil]
    rw [writeIdx_eq o ho1 ho2 0 (by omega), writeIdx_eq o ho1 ho2 1 (by omega),
      writeIdx_eq o ho1 ho2 2 (by omega), writeIdx_eq o ho1 ho2 3 (by omega),
      writeIdx_eq o ho1 ho2 4 (by omega), writeIdx_eq o ho1 ho2 5 (by omega), he]
  have hwlen : (writeHalf T o rev).length = 12 := by
    rw [hw]
    simp [hTlen]
  -- window reads
  have hR1 : ∀ j, j < 6 →
      (writeHalf T o rev).getD ((e + 1 + j) % 12) none = rev.getD j none := by
    intro j hj
    rw [hw]
    have hlen5 : ∀ (l : List (Option Piece)), l.length = 12 →
        ∀ i a, (l.set i a).length = 12 := by
      intro l hl i a
      simp [hl]
    interval_cases j
    · rw [getD_set_ne _ _ _ _ _ (by omega), getD_set_ne _ _ _ _ _ (by omega),
        getD_set_ne _ _ _ _ _ (by omega), getD_set_ne _ _ _ _ _ (by omega),
        getD_set_ne _ _ _ _ _ (by omega),
        getD_set_self _ _ _ _ (by simp [hTlen]; omega)]
    · rw [getD_set_ne _ _ _ _ _ (by omega), getD_set_ne _ _ _ _ _ (by omega),
        getD_set_ne _ _ _ _ _ (by omega), getD_set_ne _ _ _ _ _ (by omega),
        getD_set_self _ _ _ _ (by simp [hTlen]; omega)]
    · rw [getD_set_ne _ _ _ _ _ (by omega), getD_set_ne _ _ _ _ _ (by omega),
        getD_set_ne _ _ _ _ _ (by omega),
        getD_set_self _ _ _ _ (by simp [hTlen]; omega)]
    · rw [getD_set_ne _ _ _ _ _ (by omega), getD_set_ne _ _ _ _ _ (by omega),
        getD_set_self _ _ _ _ (by simp [hTlen]; omega)]
    · rw [getD_set_ne _ _ _ _ _ (by omega),
        getD_set_self _ _ _ _ (by simp [hTlen]; omega)]
    · rw [getD_set_self _ _ _ _ (by simp [hTlen]; omega)]
  have hR2 : ∀ i, (∀ j, j < 6 → i ≠ (e + 1 + j) % 12) →
      (writeHalf T o rev).getD i none = T.getD i none := by
    intro i hout
    rw [hw]
    rw [getD_set_ne _ _ _ _ _ (Ne.symm (hout 5 (by omega))),
      getD_set_ne _ _ _ _ _ (Ne.symm (hout 4 (by omega))),
      getD_set_ne _ _ _ _ _ (Ne.symm (hout 3 (by omega))),
      getD_set_ne _ _ _ _ _ (Ne.symm (hout 2 (by omega))),
      getD_set_ne _ _ _ _ _ (Ne.symm (hout 1 (by omega))),
      getD_set_ne _ _ _ _ _ (Ne.symm (hout 0 (by omega)))]
  -- facts about the reversed half
  have hrev0 : rev.getD 0 none ≠ none := by
    intro hc
    have := (hOK.1 0 (by omega)).mp hc
    omega
  have hrev5 : isCorner (rev.getD 5 none) = false := by
    rcases hOK.2 with hnil | hlast
    · rw [hnil] at hr; simp at hr
    · rw [hr] at hlast
      simpa using hlast
  have hwin : ∀ j, 1 ≤ j → j < 6 →
      (rev.getD j none = none ↔ isCorner (rev.getD (j - 1) none) = true) := by
    intro j hj1 hj6
    have := hOK.1 j (by omega)
    constructor
    · intro hn
      exact (this.mp hn).2
    · intro hc
      exact this.mpr ⟨hj1, hc⟩
  apply layer_wf_of_spec _ hwlen
  intro i hi
  have hdecomp : ∃ m, m < 12 ∧ i = (e + m) % 12 := ⟨(i + 12 - e) % 12, by omega, by omega⟩
  obtain ⟨m, hm12, him⟩ := hdecomp
  subst him
  interval_cases m
  · -- m = 0 : the slot at the cut, previous slot also outside the window
    rw [hR2 _ (by intro j hj; omega), hR2 _ (by intro j hj; omega)]
    have := hTwf ((e + 0) % 12) (by omega)
    rw [show ((e + 0) % 12 + 11) % 12 = (e + 11) % 12 from by omega] at this
    rw [show ((e + 0) % 12 + 11) % 12 = (e + 11) % 12 from by omega]
    exact this
  · -- m = 1 : first window slot; previous is the cut slot
    rw [show (e + 1) % 12 = (e + 1 + 0) % 12 from by omega]
    rw [hR1 0 (by omega)]
    rw [show ((e + 1 + 0) % 12 + 11) % 12 = (e + 0) % 12 from by omega]
    rw [hR2 _ (by intro j hj; omega)]
    rw [show (e + 0) % 12 = e from by omega, hc1]
    simp only [Bool.false_eq_true, iff_false]
    exact hrev0
  · -- m = 2 : window slot, previous also in the window
    rw [show (e + 2) % 12 = (e + 1 + 1) % 12 from by omega]
    rw [hR1 1 (by omega)]
    rw [show ((e + 1 + 1) % 12 + 11) % 12 = (e + 1 + 0) % 12 from by omega]
    rw [hR1 0 (by omega)]
    have hj := hwin 1 (by omega) (by omega)
    simpa using hj
  · -- m = 3 : window slot, previous also in the window
    rw [show (e + 3) % 12 = (e + 1 + 2) % 12 from by omega]
    rw [hR1 2 (by omega)]
    rw [show ((e + 1 + 2) % 12 + 11) % 12 = (e + 1 + 1) % 12 from by omega]
    rw [hR1 1 (by omega)]
    have hj := hwin 2 (by omega) (by omega)
    simpa using hj
  · -- m = 4 : window slot, previous also in the window
    rw [show (e + 4) % 12 = (e + 1 + 3) % 12 from by omega]
    rw [hR1 3 (by omega)]
    rw [show ((e + 1 + 3) % 12 + 11) % 12 = (e + 1 + 2) % 12 from by omega]
    rw [hR1 2 (by omega)]
    have hj := hwin 3 (by omega) (by omega)
    simpa using hj
  · -- m = 5 : window slot, previous also in the window
    rw [show (e + 5) % 12 = (e + 1 + 4) % 12 from by omega]
    rw [hR1 4 (by omega)]
    rw [show ((e + 1 + 4) % 12 + 11) % 12 = (e + 1 + 3) % 12 from by omega]
    rw [hR1 3 (by omega)]
    have hj := hwin 4 (by omega) (by omega)
    simpa using hj
  · -- m = 6 : window slot, previous also in the window
    rw [show (e + 6) % 12 = (e + 1 + 5) % 12 from by omega]
    rw [hR1 5 (by omega)]
    rw [show ((e + 1 + 5) % 12 + 11) % 12 = (e + 1 + 4) % 12 from by omega]
    rw [hR1 4 (by omega)]
    have hj := hwin 5 (by omega) (by omega)
    simpa using hj
  · -- m = 7 : slot just past the window, previous is the window's last slot
    rw [hR2 _ (by intro j hj; omega)]
    rw [show ((e + 7) % 12 + 11) % 12 = (e + 1 + 5) % 12 from by omega]
    rw [hR1 5 (by omega)]
    have hT7 := hTwf ((e + 7) % 12) (by omega)
    rw [show ((e + 7) % 12 + 11) % 12 = (e + 6) % 12 from by omega, hc2] at hT7
    rw [hrev5]
    simp only [Bool.false_eq_true, iff_false] at hT7 ⊢
    exact hT7
  · -- m = 8 : untouched front-half slot
    rw [hR2 _ (by intro j hj; omega)]
    rw [show ((e + 8) % 12 + 11) % 12 = (e + 7) % 12 from by omega]
    rw [hR2 _ (by intro j hj; omega)]
    have hT := hTwf ((e + 8) % 12) (by omega)
    rw [show ((e + 8) % 12 + 11) % 12 = (e + 7) % 12 from by omega] at hT
    exact hT
  · -- m = 9 : untouched front-half slot
    rw [hR2 _ (by intro j hj; omega)]
    rw [show ((e + 9) % 12 + 11) % 12 = (e + 8) % 12 from by omega]
    rw [hR2 _ (by intro j hj; omega)]
    have hT := hTwf ((e + 9) % 12) (by omega)
    rw [show ((e + 9) % 12 + 11) % 12 = (e + 8) % 12 from by omega] at hT
    exact hT
  · -- m = 10 : untouched front-half slot
    rw [hR2 _ (by intro j hj; omega)]
    rw [show ((e + 10) % 12 + 11) % 12 = (e + 9) % 12 from by omega]
    rw [hR2 _ (by intro j hj; omega)]
    have hT := hTwf ((e + 10) % 12) (by omega)
    rw [show ((e + 10) % 12 + 11) % 12 = (e + 9) % 12 from by omega] at hT
    exact hT
  · -- m = 11 : untouched front-half slot
    rw [hR2 _ (by intro j hj; omega)]
    rw [show ((e + 11) % 12 + 11) % 12 = (e + 10) % 12 from by omega]
    rw [hR2 _ (by intro j hj; omega)]
    have hT := hTwf ((e + 11) % 12) (by omega)
    rw [show ((e + 11) % 12 + 11) % 12 = (e + 10) % 12 from by omega] at hT
    exact hT

theorem normalize_bounds (a : Int) : -5 ≤ normalize a ∧ normalize a ≤ 6 := by
  unfold normalize
  omega

/-- `state_inv` split into its components. -/
theorem state_inv_spec (s : SqOne) (h : state_inv s = true) :
    layer_wf s.top = true ∧ layer_wf s.bottom = true ∧
      -5 ≤ s.top_offset ∧ s.top_offset ≤ 6 ∧
      -5 ≤ s.bottom_offset ∧ s.bottom_offset ≤ 6 := by
  unfold state_inv at h
  simp only [Bool.and_eq_true, decide_eq_true_eq] at h
  tauto

theorem state_inv_of_spec (s : SqOne)
    (h1 : layer_wf s.top = true) (h2 : layer_wf s.bottom = true)
    (h3 : -5 ≤ s.top_offset) (h4 : s.top_offset ≤ 6)
    (h5 : -5 ≤ s.bottom_offset) (h6 : s.bottom_offset ≤ 6) :
    state_inv s = true := by
  unfold state_inv
  simp only [Bool.and_eq_true, decide_eq_true_eq]
  tauto

/-- A successful `flip` preserves the layer well-formedness and offset
bounds. -/
theorem flip_preserves_inv (s s' : SqOne) (hinv : state_inv s = true)
    (h : flip s = some s') : state_inv s' = true := by
  obtain ⟨hwt, hwb, ho1, ho2, ho3, ho4⟩ := state_inv_spec s hinv
  unfold flip at h
  by_cases hcf : can_flip s = true
  · rw [if_pos hcf] at h
    have hcfp : can_flip_layer s.top s.top_offset = true ∧
        can_flip_layer s.bottom s.bottom_offset = true := by
      unfold can_flip at hcf
      rwa [Bool.and_eq_true] at hcf
    obtain ⟨revT, hgrT, hlenT, hokT⟩ := get_reverse_wf s.top s.top_offset hwt ho1 ho2 hcfp.1
    obtain ⟨revB, hgrB, hlenB, hokB⟩ :=
      get_reverse_wf s.bottom s.bottom_offset hwb ho3 ho4 hcfp.2
    rw [hgrT, hgrB] at h
    dsimp only [] at h
    rw [if_pos ⟨by omega, by omega⟩] at h
    have hs' := Option.some.inj h
    obtain ⟨hcT1, hcT2⟩ := can_flip_layer_parts s.top s.top_offset hcfp.1
    obtain ⟨hcB1, hcB2⟩ := can_flip_layer_parts s.bottom s.bottom_offset hcfp.2
    have hwfT' := writeHalf_wf s.top s.top_offset revB hwt ho1 ho2 hlenB hokB hcT1 hcT2
    have hwfB' := writeHalf_wf s.bottom s.bottom_offset revT hwb ho3 ho4 hlenT hokT hcB1 hcB2
    apply state_inv_of_spec
    · rw [← hs']; exact hwfT'
    · rw [← hs']; exact hwfB'
    · rw [← hs']; exact ho1
    · rw [← hs']; exact ho2
    · rw [← hs']; exact ho3
    · rw [← hs']; exact ho4
  · simp only [Bool.not_eq_true] at hcf
    rw [hcf] at h
    simp only [Bool.false_eq_true, if_false] at h
    rw [← Option.some.inj h]
    exact hinv

/-- `twist` preserves the invariant: the layers are untouched and the new
offsets are renormalized into `[-5, 6]`. -/
theorem twist_preserves_inv (s : SqOne) (a b : Int) (hinv : state_inv s = true) :
    state_inv (twist s a b) = true := by
  obtain ⟨hwt, hwb, _, _, _, _⟩ := state_inv_spec s hinv
  apply state_inv_of_spec
  · exact hwt
  · exact hwb
  · simp only [twist]
    have := abs_mod_nonneg (wrap8 (wrap8 (s.top_offset + a) + 5))
    omega
  · simp only [twist]
    have := abs_mod_lt (wrap8 (wrap8 (s.top_offset + a) + 5))
    omega
  · simp only [twist]
    have := abs_mod_nonneg (wrap8 (wrap8 (s.bottom_offset - b) + 5))
    omega
  · simp only [twist]
    have := abs_mod_lt (wrap8 (wrap8 (s.bottom_offset - b) + 5))
    omega

/-- Every reachable state has well-formed layers and offsets in `[-5, 6]`. -/
theorem reachable_state_inv (s : SqOne) (h : Reachable s) : state_inv s = true := by
  induction h with
  | init => decide
  | twist s a b hr ih => exact twist_preserves_inv s a b ih
  | flip s s' hr hf ih => exact flip_preserves_inv s s' ih hf

/-- From a positive legal count, the rejection sampler's accept condition
`can_flip_layer(layer, rnum + offset)` is satisfiable by an in-range draw. -/
theorem exists_legal_draw (L : List (Option Piece)) (o : Int)
    (ho1 : -5 ≤ o) (ho2 : o ≤ 6) (hc : 1 ≤ legalCount L) :
    ∃ r, -5 ≤ r ∧ r ≤ 6 ∧ can_flip_layer L (wrap8 (r + o)) = true := by
  unfold legalCount at hc
  have hne : ((List.range 12).filter (fun (k : Nat) => can_flip_layer L ((k : Int) - 5))) ≠ [] := by
    intro hnil
    rw [hnil] at hc
    simp at hc
  obtain ⟨x, hx⟩ := List.exists_mem_of_ne_nil _ hne
  have hx2 : can_flip_layer L ((x : Int) - 5) = true := (List.mem_filter.mp hx).2
  have hxr : x < 12 := List.mem_range.mp (List.mem_filter.mp hx).1
  have hnb := normalize_bounds ((x : Int) - 5 - o)
  refine ⟨normalize ((x : Int) - 5 - o), hnb.1, hnb.2, ?_⟩
  rw [wrap8_eq_self _ (by omega) (by omega)]
  rw [can_flip_layer_normalize L _ (by omega) (by omega)]
  rw [show normalize (normalize ((x : Int) - 5 - o) + o) = normalize ((x : Int) - 5)
    from by unfold normalize; omega]
  rw [← can_flip_layer_normalize L ((x : Int) - 5) (by omega) (by omega)]
  exact hx2

/-- C3 (amended): every state reachable from the solved configuration by
`twist` and `flip` has at least 2 (not 4) of the 12 candidate offsets in
`{-5, …, 6}` satisfying `can_flip_layer` on each layer, and on each layer
an in-range draw exists that the rejection sampler of
`rand_layer_offset` accepts — the loop's accept set is never empty. -/
theorem reachable_legal_offsets (s : SqOne) (h : Reachable s) :
    (2 ≤ legalCount s.top ∧ 2 ≤ legalCount s.bottom) ∧
      (∃ r, -5 ≤ r ∧ r ≤ 6 ∧
        can_flip_layer s.top (wrap8 (r + s.top_offset)) = true) ∧
      (∃ r, -5 ≤ r ∧ r ≤ 6 ∧
        can_flip_layer s.bottom (wrap8 (r + s.bottom_offset)) = true) := by
  have hinv := reachable_state_inv s h
  obtain ⟨hwt, hwb, ho1, ho2, ho3, ho4⟩ := state_inv_spec s hinv
  have h1 := legalCount_ge_two s.top hwt
  have h2 := legalCount_ge_two s.bottom hwb
  exact ⟨⟨h1, h2⟩, exists_legal_draw s.top s.top_offset ho1 ho2 (by omega),
    exists_legal_draw s.bottom s.bottom_offset ho3 ho4 (by omega)⟩

theorem applyMoves_reachable :
    ∀ (ms : List (Int × Int)) (s s' : SqOne),
      applyMoves s ms = some s' → Reachable s → Reachable s' := by
  intro ms
  induction ms with
  | nil =>
    intro s s' h hr
    unfold applyMoves at h
    exact (Option.some.inj h) ▸ hr
  | cons m ms ih =>
    intro s s' h hr
    unfold applyMoves at h
    cases hf : flip (twist s m.1 m.2) with
    | none => rw [hf] at h; exact absurd h (by simp)
    | some s1 =>
      rw [hf] at h
      exact ih s1 s' h (Reachable.flip _ _ (Reachable.twist s m.1 m.2 hr) hf)

/-- C3 (counterexample): a concrete state reachable in four
twist-then-flip moves whose bottom layer has only 2 flippable offsets —
fewer than the 4 the claim promises. -/
theorem reachable_legal_offsets_cex :
    Reachable cexState ∧ legalCount cexState.bottom < 4 := by
  constructor
  · exact applyMoves_reachable cexMoves SqOne.new cexState (by decide) Reachable.init
  · decide

/-- Witness for C3 at the solved state. -/
theorem reachable_legal_offsets_witness :
    2 ≤ legalCount SqOne.new.top :=
  (reachable_legal_offsets SqOne.new Reachable.init).1.1

end SqOneSpec
